import Mathlib

/-!
Shallow embedding of `python-circuit` (src/circuit/breaker.py,
src/circuit/_threadsafe.py) together with proofs about its behaviour.

Times are modelled as rationals (`ℚ`), failure categories (exception
types) as naturals, and the two `collections.deque` ring buffers as
Lean lists manipulated by explicit append/tail exactly as the Python
code appends and pops.  Python exceptions that a method can raise are
made explicit: `CircuitBreaker.enter` (from `__enter__`) returns the
object state paired with an optional raised exception (the object
survives a raise unchanged, as in Python), while `__exit__`/`_error`
are modelled in the `Except` monad because the claims about them only
concern runs on which no exception escapes.
-/

namespace Circuit

/-- The `_state` attribute: one of the strings `'closed'`, `'open'`,
`'half-open'`. -/
inductive BState where
  | closed
  | opened
  | halfOpen
deriving DecidableEq

/-- The Python exceptions that the embedded code can raise. -/
inductive PyError where
  | circuitOpen
  | zeroDivision
  | assertionFailed
  | indexError
  | typeError
  | attributeError
  | valueError
deriving DecidableEq

/-- A `CircuitBreaker` instance: the attributes set by `__init__`
(src/circuit/breaker.py lines 80-93), omitting only the logging
fields and the clock (the current time is passed to each operation
explicitly). -/
structure CircuitBreaker where
  maxFail : ℕ
  timeUnit : Option ℚ
  maxErrorRate : Option ℚ
  resetTimeout : ℚ
  errorTypes : List ℕ
  lastChange : Option ℚ
  errorTimes : List (Option ℚ)
  numCalls : List ℕ
  state : BState
deriving DecidableEq

/-- `CircuitBreaker.__init__`: validates the configuration and builds the
initial object.  The two `raise ValueError` guards are the only
validation the constructor performs. -/
def CircuitBreaker.init (maxFail : ℕ) (timeUnit maxErrorRate : Option ℚ)
    (resetTimeout : ℚ) (errorTypes : List ℕ) : Except PyError CircuitBreaker :=
  if timeUnit.isNone && maxErrorRate.isNone then
    .error .valueError
  else if (match maxErrorRate with
           | some r => !(decide (0 < r) && decide (r ≤ 1))
           | none => false) then
    .error .valueError
  else
    .ok { maxFail := maxFail
          timeUnit := timeUnit
          maxErrorRate := maxErrorRate
          resetTimeout := resetTimeout
          errorTypes := errorTypes
          lastChange := none
          errorTimes := List.replicate maxFail none
          numCalls := List.replicate maxFail 0
          state := .closed }

/-- `self._num_calls[-1] += 1`: increment the last element of the ring;
`none` models the `IndexError` raised on an empty deque. -/
def incLast : List ℕ → Option (List ℕ)
  | [] => none
  | [n] => some [n + 1]
  | n :: ns => (incLast ns).map (n :: ·)

/-- `CircuitBreaker._success` (src/circuit/breaker.py lines 157-160). -/
def CircuitBreaker.success (b : CircuitBreaker) : CircuitBreaker :=
  if b.state = .halfOpen then { b with state := .closed } else b

/-- `CircuitBreaker._error` (src/circuit/breaker.py lines 124-155):
push `now` into the failure-time ring evicting the earliest entry, sum
the call-count ring, shift the call-count ring, then evaluate the
opening condition.  `ZeroDivisionError` (from
`self._max_fail / total_calls`) and the `assert error_rate <= 1.0` are
modelled as `Except.error`. -/
def CircuitBreaker.error (b : CircuitBreaker) (now : ℚ) : Except PyError CircuitBreaker :=
  let appended := b.errorTimes ++ [some now]
  let earliest := appended.headD none
  let totalCalls := b.numCalls.sum
  let b1 : CircuitBreaker :=
    { b with errorTimes := appended.tail, numCalls := (b.numCalls ++ [0]).tail }
  if b.state = .closed then
    match earliest with
    | none => .ok b1
    | some e =>
      if totalCalls = 0 then .error .zeroDivision
      else
        let errorRate : ℚ := (b.maxFail : ℚ) / (totalCalls : ℚ)
        if 1 < errorRate then .error .assertionFailed
        else
          let timeOk : Bool := match b.timeUnit with
            | some tu => decide (now - e < tu)
            | none => true
          let rateOk : Bool := match b.maxErrorRate with
            | some r => decide (r ≤ errorRate)
            | none => true
          if timeOk && rateOk then
            .ok { b1 with state := .opened, lastChange := some now }
          else
            .ok b1
  else
    .ok { b1 with state := .opened, lastChange := some now }

/-- `CircuitBreaker.__enter__` (src/circuit/breaker.py lines 103-113):
returns the object after the call together with the exception raised,
if any.  `self._clock() - self._last_change` with `_last_change` still
`None` would be a `TypeError`. -/
def CircuitBreaker.enter (b : CircuitBreaker) (now : ℚ) :
    CircuitBreaker × Option PyError :=
  if b.state = .opened then
    match b.lastChange with
    | none => (b, some .typeError)
    | some lc =>
      if now - lc < b.resetTimeout then (b, some .circuitOpen)
      else ({ b with state := .halfOpen }, none)
  else (b, none)

/-- `CircuitBreaker.__exit__` (src/circuit/breaker.py lines 115-122):
`exc = none` models a normal return, `exc = some c` an exception of
category `c`; a category outside `errorTypes` takes the success
branch. -/
def CircuitBreaker.exitStep (b : CircuitBreaker) (now : ℚ) (exc : Option ℕ) :
    Except PyError CircuitBreaker :=
  match incLast b.numCalls with
  | none => .error .indexError
  | some nc =>
    let b1 : CircuitBreaker := { b with numCalls := nc }
    match exc with
    | none => .ok b1.success
    | some c => if c ∈ b1.errorTypes then b1.error now else .ok b1.success

/-- One protected call at time `now` whose body finishes with outcome
`exc` (`with breaker: ...`): run `__enter__`; a `CircuitOpenError`
skips the body and the `__exit__` bookkeeping, any other enter-time
exception aborts the run, and otherwise `__exit__` records the
outcome. -/
def call (b : CircuitBreaker) (now : ℚ) (exc : Option ℕ) :
    Except PyError CircuitBreaker :=
  match b.enter now with
  | (b1, none) => b1.exitStep now exc
  | (b1, some .circuitOpen) => .ok b1
  | (_, some e) => .error e

/-- A sequence of protected calls, each given as (time, outcome). -/
def runCalls (b : CircuitBreaker) : List (ℚ × Option ℕ) → Except PyError CircuitBreaker
  | [] => .ok b
  | (t, e) :: rest =>
    match call b t e with
    | .ok b1 => runCalls b1 rest
    | .error err => .error err

/-- The instance attributes assigned by `CircuitBreaker.__init__`
(src/circuit/breaker.py lines 80-93); Python attribute lookup on a
breaker succeeds exactly for these. -/
def breakerAttrs : List String :=
  ["_max_fail", "_time_unit", "_max_error_rate", "_reset_timeout",
   "_error_types", "_log", "_log_tracebacks", "_clock",
   "_last_change", "_error_times", "_num_calls", "_state"]

/-- `ThreadSafeCircuitBreaker.__enter__` (src/circuit/_threadsafe.py
lines 11-15): evaluates `self.state != 'open'`, where `state` is an
attribute never assigned on the instance or the classes, so the lookup
raises `AttributeError` before anything else runs. -/
def ThreadSafeCircuitBreaker.enter (b : CircuitBreaker) (now : ℚ) :
    CircuitBreaker × Option PyError :=
  if "state" ∈ breakerAttrs then
    if b.state ≠ .opened then (b, none) else b.enter now
  else (b, some .attributeError)

/-- `ThreadSafeCircuitBreaker._success` (src/circuit/_threadsafe.py
lines 17-21): also reads the unassigned `self.state` attribute. -/
def ThreadSafeCircuitBreaker.success (b : CircuitBreaker) :
    CircuitBreaker × Option PyError :=
  if "state" ∈ breakerAttrs then
    if b.state ≠ .halfOpen then (b, none) else (b.success, none)
  else (b, some .attributeError)

/-- A freshly constructed breaker with `max_fail=2, time_unit=60,
reset_timeout=10` and category `0` as the single error type, as in the
spec's walk-through scenario. -/
def scenarioBreaker : CircuitBreaker :=
  { maxFail := 2, timeUnit := some 60, maxErrorRate := none, resetTimeout := 10,
    errorTypes := [0], lastChange := none,
    errorTimes := [none, none], numCalls := [0, 0], state := .closed }

/-- The breaker state reached from `scenarioBreaker` after qualifying
failures at t = 0, 1, 2: open since t = 2. -/
def scenarioOpenBreaker : CircuitBreaker :=
  { maxFail := 2, timeUnit := some 60, maxErrorRate := none, resetTimeout := 10,
    errorTypes := [0], lastChange := some 2,
    errorTimes := [some 1, some 2], numCalls := [1, 0], state := .opened }

/-- An open breaker used to instantiate the `tryEnter` gate theorem. -/
def openBreaker : CircuitBreaker :=
  { maxFail := 1, timeUnit := some 60, maxErrorRate := none, resetTimeout := 10,
    errorTypes := [0], lastChange := some 2,
    errorTimes := [some 2], numCalls := [1], state := .opened }

/-- A half-open breaker used to instantiate the half-open transition
theorem. -/
def halfOpenBreaker : CircuitBreaker :=
  { maxFail := 1, timeUnit := some 60, maxErrorRate := none, resetTimeout := 10,
    errorTypes := [0], lastChange := some 2,
    errorTimes := [some 2], numCalls := [1], state := .halfOpen }

/-- The breaker produced by `CircuitBreaker.init 0 (some 60) none 10 []`:
construction with `max_fail = 0` succeeds. -/
def zeroMaxFailBreaker : CircuitBreaker :=
  { maxFail := 0, timeUnit := some 60, maxErrorRate := none, resetTimeout := 10,
    errorTypes := [], lastChange := none,
    errorTimes := [], numCalls := [], state := .closed }

/-- C2: while `open`, a `tryEnter` strictly before
`lastChangeTime + resetTimeout` raises `CircuitOpenError` and leaves the
breaker unchanged; at or after that instant it moves the breaker to
`half-open` (all other fields unchanged) and permits; while not `open`
it permits unconditionally and changes nothing. -/
theorem c2_enter_gate (b : CircuitBreaker) (now t : ℚ)
    (hlc : b.lastChange = some t) :
    (b.state = .opened → now < t + b.resetTimeout →
      b.enter now = (b, some .circuitOpen)) ∧
    (b.state = .opened → t + b.resetTimeout ≤ now →
      b.enter now = ({ b with state := .halfOpen }, none)) ∧
    (b.state ≠ .opened → b.enter now = (b, none)) := by
  refine ⟨fun hs hlt => ?one, fun hs hge => ?two, fun hs => ?three⟩
  · simp [CircuitBreaker.enter, hs, hlc, show now - t < b.resetTimeout by linarith]
  · simp [CircuitBreaker.enter, hs, hlc, show ¬(now - t < b.resetTimeout) by linarith]
  · simp [CircuitBreaker.enter, hs]

/-- Witness for `c2_enter_gate` at the open breaker `openBreaker`
(`lastChange = 2`, `resetTimeout = 10`): rejected at t = 11, half-open
at t = 12, and a closed breaker always permitted. -/
theorem c2_enter_gate_witness :
    openBreaker.enter 11 = (openBreaker, some .circuitOpen) ∧
    openBreaker.enter 12 = ({ openBreaker with state := .halfOpen }, none) ∧
    halfOpenBreaker.enter 0 = (halfOpenBreaker, none) :=
  ⟨(c2_enter_gate openBreaker 11 2 rfl).1 rfl (by norm_num [openBreaker]),
   (c2_enter_gate openBreaker 12 2 rfl).2.1 rfl (by norm_num [openBreaker]),
   (c2_enter_gate halfOpenBreaker 0 2 rfl).2.2 (by simp [halfOpenBreaker])⟩

/-- C3: from `half-open`, a recorded success (`_success`) moves the
breaker to `closed`, and a recorded qualifying failure (`_error`)
moves it to `open` unconditionally, whatever the ring contents. -/
theorem c3_half_open_transitions (b : CircuitBreaker) (now : ℚ)
    (hs : b.state = .halfOpen) :
    b.success.state = .closed ∧
    ∃ b', b.error now = .ok b' ∧ b'.state = .opened ∧ b'.lastChange = some now := by
  constructor
  · simp [CircuitBreaker.success, hs]
  · have h : b.error now =
        .ok { b with errorTimes := (b.errorTimes ++ [some now]).tail,
                     numCalls := (b.numCalls ++ [0]).tail,
                     state := .opened, lastChange := some now } := by
      simp [CircuitBreaker.error, hs]
    exact ⟨_, h, rfl, rfl⟩

/-- Witness for `c3_half_open_transitions` at `halfOpenBreaker`. -/
theorem c3_half_open_transitions_witness :
    halfOpenBreaker.success.state = .closed ∧
    ∃ b', halfOpenBreaker.error 3 = .ok b' ∧
      b'.state = .opened ∧ b'.lastChange = some 3 :=
  c3_half_open_transitions halfOpenBreaker 3 rfl

/-- C5 counterexample: in the spec scenario (`maxFail=2, timeUnit=60s,
resetTimeout=10s`, three qualifying failures at t = 0, 1, 2) the
breaker opens at t = 2 with `lastChange = 2`, so a `tryEnter` at
t = 11 (9 seconds later, before the 10-second reset timeout) raises
`CircuitOpenError` and the breaker stays `open` — it does not move to
`half-open` as the claim states. -/
theorem c5_counterexample :
    runCalls scenarioBreaker [(0, some 0), (1, some 0), (2, some 0)] =
      .ok scenarioOpenBreaker ∧
    scenarioOpenBreaker.state = .opened ∧
    scenarioOpenBreaker.lastChange = some 2 ∧
    scenarioOpenBreaker.enter 11 = (scenarioOpenBreaker, some .circuitOpen) := by
  refine ⟨?_, rfl, rfl, ?_⟩
  · norm_num +decide [runCalls, call, CircuitBreaker.enter, CircuitBreaker.exitStep,
      incLast, CircuitBreaker.success, CircuitBreaker.error, scenarioBreaker,
      scenarioOpenBreaker]
  · norm_num [CircuitBreaker.enter, scenarioOpenBreaker]

/-- C5 amended: same scenario, but the probe must come once the full
reset timeout has elapsed since the transition at t = 2: three
qualifying failures at t = 0, 1, 2 open the breaker at t = 2; a
`tryEnter` at t = 12 moves it to `half-open` and permits; a recorded
success then moves it to `closed`. -/
theorem c5_amended_scenario :
    runCalls scenarioBreaker [(0, some 0), (1, some 0), (2, some 0)] =
      .ok scenarioOpenBreaker ∧
    scenarioOpenBreaker.state = .opened ∧
    scenarioOpenBreaker.enter 12 =
      ({ scenarioOpenBreaker with state := .halfOpen }, none) ∧
    ({ scenarioOpenBreaker with state := .halfOpen } : CircuitBreaker).success.state
      = .closed := by
  refine ⟨?_, rfl, ?_, rfl⟩
  · norm_num +decide [runCalls, call, CircuitBreaker.enter, CircuitBreaker.exitStep,
      incLast, CircuitBreaker.success, CircuitBreaker.error, scenarioBreaker,
      scenarioOpenBreaker]
  · norm_num [CircuitBreaker.enter, scenarioOpenBreaker]

/-- C6 counterexample: `CircuitBreaker.__init__` never validates
`max_fail`; construction with `max_fail = 0` (and `time_unit = 60`)
succeeds and yields a closed breaker, contradicting the claim that
construction fails whenever `maxFail <= 0`. -/
theorem c6_counterexample :
    CircuitBreaker.init 0 (some 60) none 10 [] = .ok zeroMaxFailBreaker ∧
    zeroMaxFailBreaker.state = .closed := by
  exact ⟨rfl, rfl⟩

/-- C6 amended: construction fails (with `ValueError`) iff both
`timeUnit` and `maxErrorRate` are unset, or `maxErrorRate` is set
outside `(0, 1]`; otherwise it succeeds and yields the initial closed
breaker with empty rings of size `maxFail`.  `maxFail` is not
validated. -/
theorem c6_amended_validation (m : ℕ) (tu mer : Option ℚ) (rt : ℚ)
    (ets : List ℕ) :
    (CircuitBreaker.init m tu mer rt ets = .error .valueError ∨
     CircuitBreaker.init m tu mer rt ets =
       .ok { maxFail := m, timeUnit := tu, maxErrorRate := mer,
             resetTimeout := rt, errorTypes := ets, lastChange := none,
             errorTimes := List.replicate m none,
             numCalls := List.replicate m 0, state := .closed }) ∧
    (CircuitBreaker.init m tu mer rt ets = .error .valueError ↔
      (tu = none ∧ mer = none) ∨
      ∃ r, mer = some r ∧ ¬(0 < r ∧ r ≤ 1)) := by
  cases tu with
  | none =>
    cases mer with
    | none => simp [CircuitBreaker.init]
    | some r =>
      by_cases h : 0 < r ∧ r ≤ 1
      · simp [CircuitBreaker.init, h.1, h.2, h]
      · have hb : !(decide (0 < r) && decide (r ≤ 1)) = true := by
          simpa [Decidable.not_and_iff_or_not, -not_and] using h
        simp [CircuitBreaker.init, hb, h]
        exact fun hr => lt_of_not_le fun hle => h ⟨hr, hle⟩
  | some u =>
    cases mer with
    | none => simp [CircuitBreaker.init]
    | some r =>
      by_cases h : 0 < r ∧ r ≤ 1
      · simp [CircuitBreaker.init, h.1, h.2, h]
      · have hb : !(decide (0 < r) && decide (r ≤ 1)) = true := by
          simpa [Decidable.not_and_iff_or_not, -not_and] using h
        simp [CircuitBreaker.init, hb, h]
        exact fun hr => lt_of_not_le fun hle => h ⟨hr, hle⟩

/-- Witness for `c6_amended_validation` at `maxFail = 0`,
`timeUnit = 60`, `maxErrorRate` unset: construction does not fail. -/
theorem c6_amended_validation_witness :
    CircuitBreaker.init 0 (some 60) none 10 [] = .error .valueError ↔
      ((some (60 : ℚ) : Option ℚ) = none ∧ (none : Option ℚ) = none) ∨
      ∃ r, (none : Option ℚ) = some r ∧ ¬(0 < r ∧ r ≤ 1) :=
  (c6_amended_validation 0 (some 60) none 10 []).2

/-- C7 counterexample: `__exit__` increments the last slot of the
call-count ring before classifying the outcome, so recording a success
on a closed breaker changes the call-count ring (here from `[0, 0]` to
`[0, 1]`), contradicting the claim that the call-count ring is left
unchanged. -/
theorem c7_counterexample :
    scenarioBreaker.exitStep 0 none =
      .ok { scenarioBreaker with numCalls := [0, 1] } ∧
    ([0, 1] : List ℕ) ≠ scenarioBreaker.numCalls := by
  exact ⟨rfl, by decide⟩

/-- C7 amended: an outcome that is a success, or a failure whose
category is not in `errorTypes`, is treated as a success: the state
moves to `closed` when it was `half-open` and is unchanged otherwise,
and the failure-timestamp ring, `lastChange` and the configuration are
all unchanged — but the last slot of the call-count ring is
incremented (every completed call is counted). -/
theorem c7_success_frame (b : CircuitBreaker) (now : ℚ) (exc : Option ℕ)
    (nc : List ℕ) (hnc : incLast b.numCalls = some nc)
    (hsucc : ∀ c, exc = some c → c ∉ b.errorTypes) :
    b.exitStep now exc =
      .ok { b with numCalls := nc,
                   state := if b.state = .halfOpen then .closed else b.state } := by
  have hstep : ∀ b1 : CircuitBreaker, b1.success =
      { b1 with state := if b1.state = .halfOpen then .closed else b1.state } := by
    intro b1
    by_cases h : b1.state = .halfOpen <;> simp [CircuitBreaker.success, h]
  cases exc with
  | none =>
    simp only [CircuitBreaker.exitStep, hnc]
    rw [hstep]
  | some c =>
    have hc : c ∉ b.errorTypes := hsucc c rfl
    simp only [CircuitBreaker.exitStep, hnc]
    rw [if_neg hc, hstep]

/-- Witness for `c7_success_frame`: a success recorded on the closed
`scenarioBreaker` increments the ring slot and changes nothing else. -/
theorem c7_success_frame_witness :
    scenarioBreaker.exitStep 0 none =
      .ok { scenarioBreaker with
              numCalls := [0, 1],
              state := if scenarioBreaker.state = .halfOpen then .closed
                       else scenarioBreaker.state } :=
  c7_success_frame scenarioBreaker 0 none [0, 1] rfl (by simp)

/-- C8: `ThreadSafeCircuitBreaker.__enter__` evaluates `self.state`,
an attribute that `CircuitBreaker.__init__` never assigns (it assigns
`_state`), so every context entry on the thread-safe subclass raises
`AttributeError` — whereas the base class `__enter__` on the same
(closed) breaker permits the call without change.  The subclass
therefore does not behave like the base class even without
concurrency. -/
theorem c8_threadsafe_attribute_error :
    (∀ (b : CircuitBreaker) (now : ℚ),
      ThreadSafeCircuitBreaker.enter b now = (b, some .attributeError)) ∧
    scenarioBreaker.enter 0 = (scenarioBreaker, none) := by
  constructor
  · intro b now
    rw [ThreadSafeCircuitBreaker.enter, if_neg (by decide)]
  · rfl

/-- C1: from `closed`, recording a qualifying failure whose evicted
earliest timestamp is non-empty opens the circuit iff every configured
sub-condition holds: `now - earliest < timeUnit` (strict) when
`timeUnit` is set, and `maxFail / totalCalls >= maxErrorRate` when
`maxErrorRate` is set, where `totalCalls` is the sum of the call-count
ring just before this failure shifts it; when both are configured both
must hold.  The side hypotheses `0 < totalCalls` and
`maxFail <= totalCalls` hold on every paired-call run (see the C9 run
theorem) and keep the division and the `assert` of `_error` from
raising. -/
theorem c1_closed_open_condition (b : CircuitBreaker) (now e : ℚ)
    (hs : b.state = .closed) (hhead : b.errorTimes.headD none = some e)
    (hpos : 0 < b.numCalls.sum) (hle : b.maxFail ≤ b.numCalls.sum) :
    ∃ b', b.error now = .ok b' ∧
      (b'.state = .opened ↔
        (∀ tu, b.timeUnit = some tu → now - e < tu) ∧
        (∀ r, b.maxErrorRate = some r →
          r ≤ (b.maxFail : ℚ) / (b.numCalls.sum : ℚ))) := by
  obtain ⟨mf, tu, mer, rt, ets, lc, et, ncs, st⟩ := b
  dsimp only at hs hhead hpos hle ⊢
  subst hs
  obtain ⟨l, rfl⟩ : ∃ l, et = some e :: l := by
    cases et with
    | nil => simp at hhead
    | cons a l =>
      simp only [List.headD_cons] at hhead
      exact ⟨l, by rw [hhead]⟩
  have hq0 : (0 : ℚ) < (ncs.sum : ℚ) := by exact_mod_cast hpos
  have hrate1 : (mf : ℚ) / (ncs.sum : ℚ) ≤ 1 := by
    rw [div_le_one hq0]
    exact_mod_cast hle
  have hns : ¬ ncs.sum = 0 := by omega
  have hnlt : ¬ (1 : ℚ) < (mf : ℚ) / (ncs.sum : ℚ) := not_lt.mpr hrate1
  cases tu with
  | none =>
    cases mer with
    | none => simp [CircuitBreaker.error, -Nat.cast_list_sum, hns, hnlt]
    | some r =>
      by_cases hr : r ≤ (mf : ℚ) / (ncs.sum : ℚ) <;>
        simp [CircuitBreaker.error, -Nat.cast_list_sum, hns, hnlt, hr]
  | some u =>
    cases mer with
    | none =>
      by_cases hu : now - e < u <;>
        simp [CircuitBreaker.error, -Nat.cast_list_sum, hns, hnlt, hu]
    | some r =>
      by_cases hu : now - e < u
      · by_cases hr : r ≤ (mf : ℚ) / (ncs.sum : ℚ) <;>
          simp [CircuitBreaker.error, -Nat.cast_list_sum, hns, hnlt, hu, hr]
      · simp [CircuitBreaker.error, -Nat.cast_list_sum, hns, hnlt, hu]

/-- Witness for `c1_closed_open_condition`: a closed breaker with
`timeUnit = 60`, evicted earliest timestamp 0, two calls on record,
recording a failure at t = 2. -/
theorem c1_closed_open_condition_witness :
    ∃ b', CircuitBreaker.error
        { maxFail := 2, timeUnit := some 60, maxErrorRate := none,
          resetTimeout := 10, errorTypes := [0], lastChange := none,
          errorTimes := [some 0, some 1], numCalls := [1, 1],
          state := .closed } 2 = .ok b' ∧
      (b'.state = .opened ↔
        (∀ tu, (some (60 : ℚ) : Option ℚ) = some tu → (2 : ℚ) - 0 < tu) ∧
        (∀ r, (none : Option ℚ) = some r →
          r ≤ ((2 : ℕ) : ℚ) / ((List.sum [1, 1] : ℕ) : ℚ))) :=
  c1_closed_open_condition _ 2 0 rfl rfl (by norm_num) (by norm_num)

/-- Modelled from the spec: the registry's `sharedConfig`, "the
configuration template (maxFail, timeUnit, maxErrorRate, resetTimeout,
errorTypes) applied to every breaker it creates".  The registry itself
is not part of the sources under src/. -/
structure SharedConfig where
  maxFail : ℕ
  timeUnit : Option ℚ
  maxErrorRate : Option ℚ
  resetTimeout : ℚ
  errorTypes : List ℕ

/-- Modelled from the spec: building a breaker from the shared
configuration gives a fresh breaker in initial state `closed` with
empty windows, exactly as `CircuitBreaker.__init__` does after
validation. -/
def SharedConfig.toBreaker (c : SharedConfig) : CircuitBreaker :=
  { maxFail := c.maxFail, timeUnit := c.timeUnit, maxErrorRate := c.maxErrorRate,
    resetTimeout := c.resetTimeout, errorTypes := c.errorTypes,
    lastChange := none, errorTimes := List.replicate c.maxFail none,
    numCalls := List.replicate c.maxFail 0, state := .closed }

/-- Modelled from the spec: `BreakerRegistry` maps "an opaque key to a
lazily-created Breaker built from shared configuration"; `entries` is
the key-to-breaker mapping, an entry "created on first access for a
key (lazy, at-most-once per key), never removed automatically".  Keys
are modelled as naturals. -/
structure BreakerRegistry where
  sharedConfig : SharedConfig
  entries : List (ℕ × CircuitBreaker)

/-- Modelled from the spec: look a key up in the entry list. -/
def lookupKey (key : ℕ) : List (ℕ × CircuitBreaker) → Option CircuitBreaker
  | [] => none
  | (k, b) :: rest => if key = k then some b else lookupKey key rest

/-- Modelled from the spec: `get(key) -> Breaker` "returns the breaker
for `key`, creating one from `sharedConfig` on first access for that
key"; returns the breaker together with the registry afterwards. -/
def BreakerRegistry.get (reg : BreakerRegistry) (key : ℕ) :
    CircuitBreaker × BreakerRegistry :=
  match lookupKey key reg.entries with
  | some b => (b, reg)
  | none =>
    let b := reg.sharedConfig.toBreaker
    (b, ⟨reg.sharedConfig, (key, b) :: reg.entries⟩)

/-- Modelled from the spec: replace the breaker stored under a key,
leaving other entries alone. -/
def updateKey (key : ℕ) (b : CircuitBreaker) :
    List (ℕ × CircuitBreaker) → List (ℕ × CircuitBreaker)
  | [] => []
  | (k, c) :: rest =>
    if k = key then (key, b) :: updateKey key b rest
    else (k, c) :: updateKey key b rest

/-- Modelled from the spec: a stored breaker's state evolving in place
(the Python objects are mutable and aliased) is rendered in this
persistent model by replacing the breaker stored under its key. -/
def BreakerRegistry.update (reg : BreakerRegistry) (key : ℕ)
    (b : CircuitBreaker) : BreakerRegistry :=
  ⟨reg.sharedConfig, updateKey key b reg.entries⟩

/-- An empty registry over the scenario configuration, used to
instantiate the registry theorem. -/
def emptyRegistry : BreakerRegistry :=
  { sharedConfig :=
      { maxFail := 2, timeUnit := some 60, maxErrorRate := none,
        resetTimeout := 10, errorTypes := [0] },
    entries := [] }

/-- C10: `get` is lazy and at-most-once per key — after a `get` for
`k`, a second `get` for `k` returns the very breaker stored by the
first and leaves the registry untouched (same instance, no second
creation); a `get` for `k` never disturbs the entry of another key
`k'`; and evolving the breaker stored under `k` (an `update`) leaves
the entry of `k'` unchanged, so distinct keys' breakers evolve
independently. -/
theorem c10_registry_get (reg : BreakerRegistry) (k k' : ℕ)
    (b : CircuitBreaker) (hne : k ≠ k') :
    ((reg.get k).2.get k = ((reg.get k).1, (reg.get k).2)) ∧
    (lookupKey k' (reg.get k).2.entries = lookupKey k' reg.entries) ∧
    (lookupKey k' (reg.update k b).entries = lookupKey k' reg.entries) := by
  refine ⟨?_, ?_, ?_⟩
  · rcases h : lookupKey k reg.entries with _ | b0
    · simp [BreakerRegistry.get, h, lookupKey]
    · simp [BreakerRegistry.get, h]
  · rcases h : lookupKey k reg.entries with _ | b0
    · simp [BreakerRegistry.get, h, lookupKey, Ne.symm hne]
    · simp [BreakerRegistry.get, h]
  · simp only [BreakerRegistry.update]
    induction reg.entries with
    | nil => rfl
    | cons p rest ih =>
      obtain ⟨a, c⟩ := p
      by_cases hp : a = k
      · subst hp
        simp [updateKey, lookupKey, Ne.symm hne, ih]
      · by_cases hk : k' = a
        · simp [updateKey, lookupKey, hp, hk]
        · simp [updateKey, lookupKey, hp, hk, ih]

/-- Witness for `c10_registry_get`: a concrete registry, keys 0 and 1. -/
theorem c10_registry_get_witness :
    ((emptyRegistry.get 0).2.get 0 =
      ((emptyRegistry.get 0).1, (emptyRegistry.get 0).2)) ∧
    (lookupKey 1 (emptyRegistry.get 0).2.entries =
      lookupKey 1 emptyRegistry.entries) ∧
    (lookupKey 1 (emptyRegistry.update 0 scenarioOpenBreaker).entries =
      lookupKey 1 emptyRegistry.entries) :=
  c10_registry_get emptyRegistry 0 1 scenarioOpenBreaker (by omega)

/-! Helper lemmas for the run invariants behind C4 and C9. -/

/-- Number of filled slots of a failure-time ring. -/
def countSome (l : List (Option ℚ)) : ℕ := l.countP (·.isSome)

theorem countSome_append (l₁ l₂ : List (Option ℚ)) :
    countSome (l₁ ++ l₂) = countSome l₁ + countSome l₂ :=
  List.countP_append _ l₁ l₂

theorem countSome_map_some (ts : List ℚ) : countSome (ts.map some) = ts.length := by
  induction ts with
  | nil => rfl
  | cons t ts ih =>
    simp only [List.map_cons, countSome, List.countP_cons, Option.isSome_some]
    simpa [countSome] using ih

theorem countSome_replicate_none (j : ℕ) :
    countSome (List.replicate j none) = 0 := by
  induction j with
  | zero => rfl
  | succ j ih =>
    simp only [List.replicate_succ, countSome, List.countP_cons, Option.isSome_none]
    simpa [countSome] using ih

theorem incLast_exists (l : List ℕ) (h : l ≠ []) : ∃ l', incLast l = some l' := by
  induction l with
  | nil => exact absurd rfl h
  | cons n ns ih =>
    cases ns with
    | nil => exact ⟨[n + 1], rfl⟩
    | cons m ms =>
      obtain ⟨l', hl'⟩ := ih (by simp)
      exact ⟨n :: l', by simp [incLast, hl']⟩

theorem incLast_spec (l l' : List ℕ) (h : incLast l = some l') :
    l'.length = l.length ∧
    ∀ i, (l'.drop i).sum = (l.drop i).sum + (if i < l.length then 1 else 0) := by
  induction l generalizing l' with
  | nil => simp [incLast] at h
  | cons n ns ih =>
    cases ns with
    | nil =>
      simp only [incLast, Option.some.injEq] at h
      subst h
      refine ⟨rfl, fun i => ?_⟩
      cases i with
      | zero => simp
      | succ j => simp
    | cons m ms =>
      simp only [incLast, Option.map_eq_some'] at h
      obtain ⟨l₂, h₂, rfl⟩ := h
      obtain ⟨hlen, hsum⟩ := ih l₂ h₂
      refine ⟨by simp [hlen], fun i => ?_⟩
      cases i with
      | zero =>
        have h0 := hsum 0
        simp only [List.drop_zero] at h0 ⊢
        simp only [List.sum_cons, h0, List.length_cons]
        rw [if_pos (show 0 < ms.length + 1 by omega),
            if_pos (show 0 < ms.length + 1 + 1 by omega)]
        omega
      | succ j =>
        have hj := hsum j
        simp only [List.drop_succ_cons, hj, List.length_cons]
        by_cases hcmp : j < ms.length + 1
        · rw [if_pos hcmp, if_pos (by omega)]
        · rw [if_neg hcmp, if_neg (by omega)]

theorem incLast_length (l l' : List ℕ) (h : incLast l = some l') :
    l'.length = l.length :=
  (incLast_spec l l' h).1

theorem incLast_sum_drop (l l' : List ℕ) (h : incLast l = some l') (i : ℕ)
    (hi : i < l.length) : (l'.drop i).sum = (l.drop i).sum + 1 := by
  have := (incLast_spec l l' h).2 i
  rwa [if_pos hi] at this

/-- Generic description of `(l ++ [x]).tail` for nonempty `l`. -/
theorem tail_append_singleton (l : List (Option ℚ)) (x : Option ℚ) (h : l ≠ []) :
    (l ++ [x]).tail = l.tail ++ [x] := by
  cases l with
  | nil => exact absurd rfl h
  | cons a t => simp

theorem tail_append_singleton_nat (l : List ℕ) (x : ℕ) (h : l ≠ []) :
    (l ++ [x]).tail = l.tail ++ [x] := by
  cases l with
  | nil => exact absurd rfl h
  | cons a t => simp

/-- `_error` on a closed breaker whose evicted earliest slot is empty:
both rings shift, nothing else changes. -/
theorem error_closed_none (b : CircuitBreaker) (now : ℚ)
    (hs : b.state = .closed) (hne : b.errorTimes ≠ [])
    (hhead : b.errorTimes.headD none = none) :
    b.error now = .ok { b with errorTimes := b.errorTimes.tail ++ [some now],
                               numCalls := (b.numCalls ++ [0]).tail } := by
  cases hE : b.errorTimes with
  | nil => exact absurd hE hne
  | cons a l =>
    rw [hE] at hhead
    simp only [List.headD_cons] at hhead
    subst hhead
    simp [CircuitBreaker.error, hs, hE]

/-- `_error` on a breaker that is not closed (half-open or already
open): both rings shift and the breaker opens with `lastChange = now`,
unconditionally and without evaluating the window conditions. -/
theorem error_not_closed (b : CircuitBreaker) (now : ℚ)
    (hs : b.state ≠ .closed) :
    b.error now = .ok { b with errorTimes := (b.errorTimes ++ [some now]).tail,
                               numCalls := (b.numCalls ++ [0]).tail,
                               state := .opened, lastChange := some now } := by
  simp [CircuitBreaker.error, hs]

/-- `_error` on a closed breaker with a non-empty evicted earliest
slot, under the assumptions that keep the division and the assert from
raising: the result is one of two ring-shifted breakers, open or still
closed. -/
theorem error_closed_some_run (b : CircuitBreaker) (now : ℚ)
    (hs : b.state = .closed) (hne : b.errorTimes ≠ [])
    (hpos : 0 < b.numCalls.sum) (hle : b.maxFail ≤ b.numCalls.sum) :
    b.error now = .ok { b with errorTimes := b.errorTimes.tail ++ [some now],
                               numCalls := (b.numCalls ++ [0]).tail,
                               state := .opened, lastChange := some now } ∨
    b.error now = .ok { b with errorTimes := b.errorTimes.tail ++ [some now],
                               numCalls := (b.numCalls ++ [0]).tail } := by
  cases hhead : b.errorTimes.headD none with
  | none =>
    right
    exact error_closed_none b now hs hne hhead
  | some e =>
    obtain ⟨l, hE⟩ : ∃ l, b.errorTimes = some e :: l := by
      cases hE : b.errorTimes with
      | nil => exact absurd hE hne
      | cons a l =>
        rw [hE] at hhead
        simp only [List.headD_cons] at hhead
        exact ⟨l, by rw [hhead]⟩
    have hq0 : (0 : ℚ) < (b.numCalls.sum : ℚ) := by exact_mod_cast hpos
    have hns : ¬ b.numCalls.sum = 0 := by omega
    have hnlt : ¬ (1 : ℚ) < (b.maxFail : ℚ) / (b.numCalls.sum : ℚ) := by
      rw [not_lt, div_le_one hq0]
      exact_mod_cast hle
    by_cases hcond : ((match b.timeUnit with
        | some tu => decide (now - e < tu)
        | none => true) &&
       (match b.maxErrorRate with
        | some r => decide (r ≤ (b.maxFail : ℚ) / (b.numCalls.sum : ℚ))
        | none => true)) = true
    · left
      rw [CircuitBreaker.error]
      simp only [hs, if_pos, hE, List.cons_append, List.headD_cons,
        List.tail_cons, if_neg hns, if_neg hnlt, if_true]
      rw [if_pos hcond]
    · right
      rw [CircuitBreaker.error]
      simp only [hs, if_pos, hE, List.cons_append, List.headD_cons,
        List.tail_cons, if_neg hns, if_neg hnlt, if_true]
      rw [if_neg hcond]

/-- The shape fact: the failure-time ring is always a block of empty
slots followed by a block of filled ones. -/
theorem shape_shift (j : ℕ) (ts : List ℚ) (now : ℚ) (l : List (Option ℚ))
    (hl : l = List.replicate j none ++ ts.map some) (hne : l ≠ []) :
    ∃ (j' : ℕ) (ts' : List ℚ), l.tail ++ [some now] =
      List.replicate j' none ++ ts'.map some := by
  subst hl
  cases j with
  | zero =>
    cases ts with
    | nil => simp at hne
    | cons t ts =>
      refine ⟨0, ts ++ [now], ?_⟩
      simp
  | succ j =>
    refine ⟨j, ts ++ [now], ?_⟩
    simp [List.replicate_succ]

/-- The per-suffix balance between filled failure slots and recorded
calls is preserved by the simultaneous ring shift of `_error`, given
that the call-count ring was just incremented in its last slot. -/
theorem bal_shift (e : List (Option ℚ)) (c nc : List ℕ) (m : ℕ) (now : ℚ)
    (hm : 1 ≤ m) (hle : e.length = m) (hlc : c.length = m)
    (hbal : ∀ i, countSome (e.drop (i + 1)) ≤ (c.drop i).sum)
    (hnc : incLast c = some nc) :
    ∀ i, countSome ((e.tail ++ [some now]).drop (i + 1)) ≤
      ((nc ++ [0]).tail.drop i).sum := by
  intro i
  have hlnc : nc.length = m := by rw [incLast_length c nc hnc, hlc]
  have hncne : nc ≠ [] := by
    intro hnil
    rw [hnil] at hlnc
    simp at hlnc
    omega
  rw [tail_append_singleton_nat nc 0 hncne]
  by_cases hcase : i + 1 < m
  · have h1 : i + 1 ≤ e.tail.length := by
      rw [List.length_tail, hle]
      omega
    have h2 : i ≤ nc.tail.length := by
      rw [List.length_tail, hlnc]
      omega
    rw [List.drop_append_of_le_length h1, List.drop_append_of_le_length h2,
        countSome_append, List.sum_append]
    have he2 : e.tail.drop (i + 1) = e.drop (i + 1 + 1) := by
      rw [← List.drop_one, List.drop_drop, Nat.add_comm 1 (i + 1)]
    have hc2 : nc.tail.drop i = nc.drop (i + 1) := by
      rw [← List.drop_one, List.drop_drop, Nat.add_comm 1 i]
    rw [he2, hc2, incLast_sum_drop c nc hnc (i + 1) (by omega)]
    have hb := hbal (i + 1)
    have hone : countSome [some now] = 1 := rfl
    rw [hone]
    simp only [List.sum_cons, List.sum_nil]
    omega
  · have hlen : (e.tail ++ [some now]).length = m := by
      rw [List.length_append, List.length_tail, hle]
      simp
      omega
    rw [List.drop_eq_nil_of_le (by rw [hlen]; omega)]
    exact Nat.zero_le _

/-- The balance is preserved (weakly) by incrementing the last call
slot alone, as a success outcome does. -/
theorem bal_inc (e : List (Option ℚ)) (c nc : List ℕ)
    (hbal : ∀ i, countSome (e.drop (i + 1)) ≤ (c.drop i).sum)
    (hnc : incLast c = some nc) :
    ∀ i, countSome (e.drop (i + 1)) ≤ (nc.drop i).sum := by
  intro i
  rw [(incLast_spec c nc hnc).2 i]
  have hb := hbal i
  split <;> omega

/-- A ring of the none-block shape whose head is filled is entirely
filled. -/
theorem shape_head_some (e : List (Option ℚ)) (x : ℚ) (j : ℕ) (ts : List ℚ)
    (hsh : e = List.replicate j none ++ ts.map some)
    (hh : e.headD none = some x) :
    ∃ ts' : List ℚ, e = some x :: ts'.map some := by
  cases j with
  | succ j =>
    subst hsh
    simp [List.replicate_succ] at hh
  | zero =>
    subst hsh
    cases ts with
    | nil => simp at hh
    | cons t ts' =>
      simp only [List.replicate, List.nil_append, List.map_cons,
        List.headD_cons, Option.some.injEq] at hh
      subst hh
      exact ⟨ts', by simp⟩

/-- The run invariant maintained by every paired `__enter__`/`__exit__`
call: the configured capacity is positive, both rings hold exactly
`maxFail` slots, the failure ring is a none-block followed by filled
slots, an open breaker has a change timestamp, and every suffix of the
failure ring is balanced by the calls recorded in the matching
call-count suffix. -/
structure Inv (b : CircuitBreaker) : Prop where
  pos : 1 ≤ b.maxFail
  lenE : b.errorTimes.length = b.maxFail
  lenC : b.numCalls.length = b.maxFail
  shape : ∃ (j : ℕ) (ts : List ℚ),
    b.errorTimes = List.replicate j none ++ ts.map some
  lcSome : b.state = .opened → ∃ t, b.lastChange = some t
  bal : ∀ i, countSome (b.errorTimes.drop (i + 1)) ≤ (b.numCalls.drop i).sum

theorem Inv.numCalls_ne_nil {b : CircuitBreaker} (h : Inv b) :
    b.numCalls ≠ [] := by
  intro hnil
  have h1 := h.lenC
  have h2 := h.pos
  rw [hnil] at h1
  simp at h1
  omega

theorem Inv.errorTimes_ne_nil {b : CircuitBreaker} (h : Inv b) :
    b.errorTimes ≠ [] := by
  intro hnil
  have h1 := h.lenE
  have h2 := h.pos
  rw [hnil] at h1
  simp at h1
  omega

theorem success_preserves_Inv (b : CircuitBreaker) (h : Inv b) :
    Inv b.success := by
  rw [CircuitBreaker.success]
  split
  · exact { pos := h.pos, lenE := h.lenE, lenC := h.lenC, shape := h.shape,
            lcSome := fun hop => BState.noConfusion hop, bal := h.bal }
  · exact h

theorem halfOpen_preserves_Inv (b : CircuitBreaker) (h : Inv b) :
    Inv { b with state := .halfOpen } :=
  { pos := h.pos, lenE := h.lenE, lenC := h.lenC, shape := h.shape,
    lcSome := fun hop => BState.noConfusion hop, bal := h.bal }

/-- `_error` invoked on a breaker whose last call slot was just
incremented (as `__exit__` always does) never raises and preserves the
invariant. -/
theorem error_after_inc (b : CircuitBreaker) (nc : List ℕ) (now : ℚ)
    (h : Inv b) (hnc : incLast b.numCalls = some nc) :
    ∃ b', CircuitBreaker.error { b with numCalls := nc } now = .ok b' ∧
      Inv b' := by
  obtain ⟨j, ts, hsh⟩ := h.shape
  have hene : b.errorTimes ≠ [] := h.errorTimes_ne_nil
  obtain ⟨j', ts', hsh'⟩ := shape_shift j ts now b.errorTimes hsh hene
  have hlenE' : (b.errorTimes.tail ++ [some now]).length = b.maxFail := by
    rw [List.length_append, List.length_tail, h.lenE]
    have := h.pos
    simp
    omega
  have hlenC' : ((nc ++ [0]).tail).length = b.maxFail := by
    rw [List.length_tail, List.length_append, incLast_length _ _ hnc, h.lenC]
    simp
  have hbal' := bal_shift b.errorTimes b.numCalls nc b.maxFail now h.pos
    h.lenE h.lenC h.bal hnc
  by_cases hs : b.state = .closed
  · cases hhead : b.errorTimes.headD none with
    | none =>
      refine ⟨_, error_closed_none { b with numCalls := nc } now hs hene hhead, ?_⟩
      exact { pos := h.pos, lenE := hlenE', lenC := hlenC',
              shape := ⟨j', ts', hsh'⟩,
              lcSome := fun hop => absurd (hs ▸ hop) (by intro hco; cases hco),
              bal := hbal' }
    | some x =>
      obtain ⟨ets', hets'⟩ := shape_head_some b.errorTimes x j ts hsh hhead
      have hlents : ets'.length + 1 = b.maxFail := by
        rw [← h.lenE, hets']
        simp
      have hsum0 : ets'.length ≤ b.numCalls.sum := by
        have hb := h.bal 0
        rw [hets'] at hb
        simpa [countSome_map_some] using hb
      have hsumnc : nc.sum = b.numCalls.sum + 1 := by
        have := incLast_sum_drop b.numCalls nc hnc 0 (by
          rw [h.lenC]
          exact h.pos)
        simpa using this
      have hpos : 0 < nc.sum := by omega
      have hle : b.maxFail ≤ nc.sum := by omega
      rcases error_closed_some_run { b with numCalls := nc } now hs hene hpos hle
        with herr | herr
      · refine ⟨_, herr, ?_⟩
        exact { pos := h.pos, lenE := hlenE', lenC := hlenC',
                shape := ⟨j', ts', hsh'⟩,
                lcSome := fun _ => ⟨now, rfl⟩,
                bal := hbal' }
      · refine ⟨_, herr, ?_⟩
        exact { pos := h.pos, lenE := hlenE', lenC := hlenC',
                shape := ⟨j', ts', hsh'⟩,
                lcSome := fun hop => absurd (hs ▸ hop) (by intro hco; cases hco),
                bal := hbal' }
  · have herr := error_not_closed { b with numCalls := nc } now hs
    rw [tail_append_singleton b.errorTimes (some now) hene] at herr
    refine ⟨_, herr, ?_⟩
    exact { pos := h.pos, lenE := hlenE', lenC := hlenC',
            shape := ⟨j', ts', hsh'⟩,
            lcSome := fun _ => ⟨now, rfl⟩,
            bal := hbal' }

theorem exit_preserves_Inv (b : CircuitBreaker) (now : ℚ) (exc : Option ℕ)
    (h : Inv b) : ∃ b', b.exitStep now exc = .ok b' ∧ Inv b' := by
  obtain ⟨nc, hnc⟩ := incLast_exists b.numCalls h.numCalls_ne_nil
  have hInv1 : Inv { b with numCalls := nc } :=
    { pos := h.pos, lenE := h.lenE,
      lenC := by
        show nc.length = b.maxFail
        rw [incLast_length _ _ hnc]
        exact h.lenC,
      shape := h.shape, lcSome := h.lcSome,
      bal := bal_inc b.errorTimes b.numCalls nc h.bal hnc }
  cases exc with
  | none =>
    refine ⟨_, ?_, success_preserves_Inv _ hInv1⟩
    rw [CircuitBreaker.exitStep, hnc]
  | some c =>
    by_cases hmem : c ∈ b.errorTypes
    · obtain ⟨b', hb', hI⟩ := error_after_inc b nc now h hnc
      refine ⟨b', ?_, hI⟩
      rw [CircuitBreaker.exitStep, hnc]
      exact (if_pos hmem).trans hb'
    · refine ⟨_, ?_, success_preserves_Inv _ hInv1⟩
      rw [CircuitBreaker.exitStep, hnc]
      exact if_neg hmem

theorem enter_cases (b : CircuitBreaker) (now : ℚ) (h : Inv b) :
    b.enter now = (b, none) ∨
    b.enter now = (b, some .circuitOpen) ∨
    b.enter now = ({ b with state := .halfOpen }, none) := by
  by_cases hs : b.state = .opened
  · obtain ⟨t, ht⟩ := h.lcSome hs
    by_cases hlt : now - t < b.resetTimeout
    · right; left
      simp [CircuitBreaker.enter, hs, ht, hlt]
    · right; right
      simp [CircuitBreaker.enter, hs, ht, hlt]
  · left
    simp [CircuitBreaker.enter, hs]

theorem call_preserves_Inv (b : CircuitBreaker) (t : ℚ) (exc : Option ℕ)
    (h : Inv b) : ∃ b', call b t exc = .ok b' ∧ Inv b' := by
  rcases enter_cases b t h with he | he | he
  · simp only [call, he]
    exact exit_preserves_Inv b t exc h
  · simp only [call, he]
    exact ⟨b, rfl, h⟩
  · simp only [call, he]
    exact exit_preserves_Inv _ t exc (halfOpen_preserves_Inv b h)

theorem runCalls_preserves_Inv (ops : List (ℚ × Option ℕ)) :
    ∀ b, Inv b → ∃ b', runCalls b ops = .ok b' ∧ Inv b' := by
  induction ops with
  | nil => exact fun b h => ⟨b, rfl, h⟩
  | cons p rest ih =>
    intro b h
    obtain ⟨t, e⟩ := p
    obtain ⟨b1, hb1, h1⟩ := call_preserves_Inv b t e h
    simp only [runCalls, hb1]
    exact ih b1 h1

/-- Inverting a successful construction. -/
theorem init_ok_eq (m : ℕ) (tu mer : Option ℚ) (rt : ℚ) (ets : List ℕ)
    (b0 : CircuitBreaker)
    (hinit : CircuitBreaker.init m tu mer rt ets = .ok b0) :
    b0 = { maxFail := m, timeUnit := tu, maxErrorRate := mer,
           resetTimeout := rt, errorTypes := ets, lastChange := none,
           errorTimes := List.replicate m none,
           numCalls := List.replicate m 0, state := .closed } := by
  rw [CircuitBreaker.init.eq_def] at hinit
  split at hinit
  · exact absurd hinit (by simp)
  · split at hinit
    · exact absurd hinit (by simp)
    · exact (Except.ok.inj hinit).symm

/-- The invariant holds at construction. -/
theorem init_Inv (m : ℕ) (tu mer : Option ℚ) (rt : ℚ) (ets : List ℕ)
    (b0 : CircuitBreaker) (hm : 1 ≤ m)
    (hinit : CircuitBreaker.init m tu mer rt ets = .ok b0) : Inv b0 := by
  rw [init_ok_eq m tu mer rt ets b0 hinit]
  refine { pos := hm, lenE := by simp, lenC := by simp,
           shape := ⟨m, [], by simp⟩,
           lcSome := fun hop => BState.noConfusion hop,
           bal := fun i => ?_ }
  show countSome ((List.replicate m (none : Option ℚ)).drop (i + 1)) ≤
    ((List.replicate m (0 : ℕ)).drop i).sum
  have h1 : countSome ((List.replicate m (none : Option ℚ)).drop (i + 1)) ≤
      countSome (List.replicate m (none : Option ℚ)) :=
    (List.drop_sublist (i + 1) _).countP_le _
  rw [countSome_replicate_none] at h1
  omega

/-- C9: for a breaker constructed with `maxFail >= 1`, any sequence of
paired `__enter__`/`__exit__` calls runs without an internal exception:
whenever `_error`'s rate computation executes, the call-count ring sums
to at least `maxFail >= 1`, so the division `maxFail / totalCalls` is
defined and the `assert error_rate <= 1.0` never fails — the whole run
returns a breaker instead of an internal `Except.error`
(`ZeroDivisionError`, `AssertionError`, `IndexError` or `TypeError`). -/
theorem c9_paired_calls_never_crash (m : ℕ) (tu mer : Option ℚ) (rt : ℚ)
    (ets : List ℕ) (b0 : CircuitBreaker) (ops : List (ℚ × Option ℕ))
    (hm : 1 ≤ m)
    (hinit : CircuitBreaker.init m tu mer rt ets = .ok b0) :
    ∃ b', runCalls b0 ops = .ok b' := by
  obtain ⟨b', hb', _⟩ :=
    runCalls_preserves_Inv ops b0 (init_Inv m tu mer rt ets b0 hm hinit)
  exact ⟨b', hb'⟩

/-- Witness for `c9_paired_calls_never_crash`: `maxFail = 1`, two
qualifying failures — the second one evaluates the error rate with
`totalCalls = 2`. -/
theorem c9_paired_calls_never_crash_witness :
    ∃ b', runCalls
      { maxFail := 1, timeUnit := some 60, maxErrorRate := none,
        resetTimeout := 10, errorTypes := [0], lastChange := none,
        errorTimes := [none], numCalls := [0], state := .closed }
      [(0, some 0), (1, some 0)] = .ok b' :=
  c9_paired_calls_never_crash 1 (some 60) none 10 [0] _
    [(0, some 0), (1, some 0)] (by omega) rfl

/-- Qualifying failures of a call sequence: outcomes that are an
exception of a category in `errorTypes`. -/
def countQualifying (ets : List ℕ) (ops : List (ℚ × Option ℕ)) : ℕ :=
  ops.countP fun p => match p.2 with
    | some c => decide (c ∈ ets)
    | none => false

/-- The induction behind C4: while the breaker is closed and the
leading `j` slots of the failure ring are still empty, a call sequence
with fewer than `j` qualifying failures keeps it closed. -/
theorem c4_aux (ops : List (ℚ × Option ℕ)) :
    ∀ (b : CircuitBreaker) (j : ℕ) (ts : List ℚ),
      b.state = .closed →
      b.errorTimes = List.replicate j none ++ ts.map some →
      b.numCalls ≠ [] →
      countQualifying b.errorTypes ops < j →
      ∃ b', runCalls b ops = .ok b' ∧ b'.state = .closed := by
  induction ops with
  | nil => exact fun b j ts hs _ _ _ => ⟨b, rfl, hs⟩
  | cons p rest ih =>
    intro b j ts hs hsh hcne hcount
    obtain ⟨t, exc⟩ := p
    have henter : b.enter t = (b, none) := by
      simp [CircuitBreaker.enter, hs]
    obtain ⟨nc, hnc⟩ := incLast_exists b.numCalls hcne
    have hncne : nc ≠ [] := by
      intro hnil
      have hl := incLast_length b.numCalls nc hnc
      rw [hnil] at hl
      simp at hl
      exact hcne (List.eq_nil_of_length_eq_zero hl.symm)
    have hsucc : ({ b with numCalls := nc } : CircuitBreaker).success
        = { b with numCalls := nc } := by
      rw [CircuitBreaker.success, if_neg]
      show ¬ b.state = .halfOpen
      rw [hs]
      intro hco
      cases hco
    simp only [runCalls, call, henter]
    cases exc with
    | none =>
      rw [show b.exitStep t none = .ok ({ b with numCalls := nc } :
            CircuitBreaker).success by rw [CircuitBreaker.exitStep, hnc], hsucc]
      exact ih _ j ts hs hsh hncne
        (by simpa [countQualifying, List.countP_cons] using hcount)
    | some c =>
      by_cases hmem : c ∈ b.errorTypes
      · have hj1 : 1 ≤ j := by
          have : 1 ≤ countQualifying b.errorTypes ((t, some c) :: rest) := by
            simp [countQualifying, List.countP_cons, hmem]
          omega
        obtain ⟨j0, rfl⟩ : ∃ j0, j = j0 + 1 := ⟨j - 1, by omega⟩
        have hene : b.errorTimes ≠ [] := by
          rw [hsh, List.replicate_succ]
          simp
        have hhead : ({ b with numCalls := nc } :
            CircuitBreaker).errorTimes.headD none = none := by
          show b.errorTimes.headD none = none
          rw [hsh, List.replicate_succ]
          rfl
        have herr := error_closed_none { b with numCalls := nc } t hs hene hhead
        rw [show b.exitStep t (some c) =
              CircuitBreaker.error { b with numCalls := nc } t by
            rw [CircuitBreaker.exitStep, hnc]
            exact if_pos hmem,
            herr]
        refine ih _ j0 (ts ++ [t]) hs ?_ ?_ ?_
        · show b.errorTimes.tail ++ [some t] =
            List.replicate j0 none ++ (ts ++ [t]).map some
          rw [hsh, List.replicate_succ]
          simp
        · show (nc ++ [0]).tail ≠ []
          rw [tail_append_singleton_nat nc 0 hncne]
          simp
        · show countQualifying b.errorTypes rest < j0
          have : countQualifying b.errorTypes ((t, some c) :: rest) =
              countQualifying b.errorTypes rest + 1 := by
            simp [countQualifying, List.countP_cons, hmem]
          omega
      · rw [show b.exitStep t (some c) = .ok ({ b with numCalls := nc } :
              CircuitBreaker).success by
            rw [CircuitBreaker.exitStep, hnc]
            exact if_neg hmem,
            hsucc]
        refine ih _ j ts hs hsh hncne ?_
        show countQualifying b.errorTypes rest < j
        have : countQualifying b.errorTypes ((t, some c) :: rest) =
            countQualifying b.errorTypes rest := by
          simp [countQualifying, List.countP_cons, hmem]
        omega

/-- C4: a freshly constructed breaker (`maxFail = N >= 1`) stays
`closed` over any sequence of paired calls containing fewer than `N`
qualifying failures: the evicted earliest slot is still empty at every
failure recording, so the opening condition is never evaluated and the
circuit never opens from `closed` until `N` failures have accumulated. -/
theorem c4_below_maxfail_stays_closed (m : ℕ) (tu mer : Option ℚ) (rt : ℚ)
    (ets : List ℕ) (b0 : CircuitBreaker) (ops : List (ℚ × Option ℕ))
    (hm : 1 ≤ m)
    (hinit : CircuitBreaker.init m tu mer rt ets = .ok b0)
    (hcount : countQualifying ets ops < m) :
    ∃ b', runCalls b0 ops = .ok b' ∧ b'.state = .closed := by
  rw [init_ok_eq m tu mer rt ets b0 hinit]
  apply c4_aux ops _ m []
  · rfl
  · simp
  · show List.replicate m (0 : ℕ) ≠ []
    intro hnil
    rw [List.replicate_eq_nil_iff] at hnil
    omega
  · exact hcount

/-- Witness for `c4_below_maxfail_stays_closed`: `maxFail = 2`, a
single qualifying failure (plus a success) leaves the breaker
closed. -/
theorem c4_below_maxfail_stays_closed_witness :
    ∃ b', runCalls scenarioBreaker [(0, some 0), (1, none)] = .ok b' ∧
      b'.state = .closed :=
  c4_below_maxfail_stays_closed 2 (some 60) none 10 [0] scenarioBreaker
    [(0, some 0), (1, none)] (by omega) rfl (by decide)

end Circuit
